import Mathlib

/-!
Verification of the bounding-box core of the facebook-scraper repository.

Numbers (pixel coordinates, confidences, offsets, ratios) are modelled as
rationals.  Each Python function of `boundboxes.py`, `image_alignment.py`,
`facebook_scraper/facebook_processing.py` and
`facebook_scraper/content_parser.py` that the claims touch is translated to
an executable Lean definition below; theorems about the claims follow the
definitions.
-/

set_option maxHeartbeats 1600000

namespace FBScraper

/-- `Boundbox` (boundboxes.py, class Boundbox): a pydantic model with six
typed fields.  The class declares no validators, so construction only checks
the field types; no relation between the coordinates is enforced. -/
structure Boundbox where
  x1 : ℚ
  x2 : ℚ
  y1 : ℚ
  y2 : ℚ
  text : String
  confidence : ℚ
deriving DecidableEq, Repr

instance : Inhabited Boundbox := ⟨⟨0, 0, 0, 0, "", 0⟩⟩

/-- `Boundbox.width` property: `x2 - x1`. -/
def Boundbox.width (b : Boundbox) : ℚ := b.x2 - b.x1

/-- `Boundbox.height` property: `y2 - y1`. -/
def Boundbox.height (b : Boundbox) : ℚ := b.y2 - b.y1

/-- `Boundbox.area` property: `width * height`. -/
def Boundbox.area (b : Boundbox) : ℚ := b.width * b.height

/-- A box is well formed when its coordinates respect the data-model
invariant `x1 ≤ x2`, `y1 ≤ y2` stated in the spec's data model. -/
def Boundbox.wf (b : Boundbox) : Prop := b.x1 ≤ b.x2 ∧ b.y1 ≤ b.y2

instance (b : Boundbox) : Decidable b.wf := by unfold Boundbox.wf; infer_instance

/-- `Boundboxes` (boundboxes.py): a wrapper around a list of boxes. -/
structure Boundboxes where
  boxes : List Boundbox
deriving DecidableEq, Repr

instance : Inhabited Boundboxes := ⟨⟨[]⟩⟩

/-- The per-box transformation performed inside `apply_offset`: copy the box
and add the offset to `y1` and `y2`. -/
def shiftBox (yOffset : ℚ) (b : Boundbox) : Boundbox :=
  { b with y1 := b.y1 + yOffset, y2 := b.y2 + yOffset }

/-- `Boundboxes.apply_offset`: return a new collection whose boxes have their
Y coordinates adjusted by the offset. -/
def Boundboxes.apply_offset (bb : Boundboxes) (yOffset : ℚ) : Boundboxes :=
  Boundboxes.mk (bb.boxes.map (shiftBox yOffset))

/-- The constructor call `Boundbox(x1=…, x2=…, y1=…, y2=…, text=…,
confidence=…)`.  Modelled as the fallible operation pydantic performs: since
the class has six plainly typed fields and no validators, every well-typed
input is accepted verbatim and no error is ever produced. -/
def boundboxNew (x1 x2 y1 y2 : ℚ) (text : String) (confidence : ℚ) :
    Except String Boundbox :=
  Except.ok ⟨x1, x2, y1, y2, text, confidence⟩

/- ------------------------------------------------------------------ -/
/- C3: construction of malformed boxes                                 -/
/- ------------------------------------------------------------------ -/

/-- C3 counterexample: the claim says constructing a `Boundbox` with
`x2 < x1` raises a descriptive error.  It does not: `Boundbox` is a plain
pydantic model without validators, and the malformed box with `x1 = 1`,
`x2 = 0` is accepted and stored verbatim. -/
theorem boundboxNew_accepts_malformed :
    boundboxNew 1 0 0 1 "t" 1 = Except.ok ⟨1, 0, 0, 1, "t", 1⟩ ∧
    ((1 : ℚ), (0 : ℚ)) ∈ {p : ℚ × ℚ | p.2 < p.1} := by
  exact ⟨rfl, by norm_num⟩

/-- C3 (amended): `Boundbox` construction never fails; every input, the
malformed ones included, is accepted and the six fields are stored exactly
as given.  There is no coordinate-order or finiteness validation. -/
theorem boundboxNew_total (x1 x2 y1 y2 : ℚ) (text : String) (confidence : ℚ) :
    boundboxNew x1 x2 y1 y2 text confidence =
      Except.ok ⟨x1, x2, y1, y2, text, confidence⟩ := rfl

/- ------------------------------------------------------------------ -/
/- C5 and C9: apply_offset algebra and frame conditions                -/
/- ------------------------------------------------------------------ -/

theorem shiftBox_shiftBox (d1 d2 : ℚ) (b : Boundbox) :
    shiftBox d2 (shiftBox d1 b) = shiftBox (d1 + d2) b := by
  simp only [shiftBox]
  congr 1 <;> ring

theorem shiftBox_zero (b : Boundbox) : shiftBox 0 b = b := by
  cases b
  simp [shiftBox]

/-- C5: `apply_offset` composes additively and `0` is an identity:
offsetting by `d1` and then by `d2` gives exactly the collection obtained by
offsetting once by `d1 + d2`, and offsetting by `0` returns the collection
unchanged. -/
theorem apply_offset_add_and_zero (bb : Boundboxes) (d1 d2 : ℚ) :
    (bb.apply_offset d1).apply_offset d2 = bb.apply_offset (d1 + d2) ∧
    bb.apply_offset 0 = bb := by
  constructor
  · simp only [Boundboxes.apply_offset, List.map_map]
    congr 1
    apply List.map_congr_left
    intro b _
    exact shiftBox_shiftBox d1 d2 b
  · cases bb with
    | mk l =>
      simp only [Boundboxes.apply_offset, Boundboxes.mk.injEq]
      calc l.map (shiftBox 0) = l.map id := List.map_congr_left fun b _ => shiftBox_zero b
        _ = l := List.map_id l

/-- C9: `apply_offset` is a pure per-box map that frames every non-Y field:
the result has the same number of boxes in the same order, the box at every
position is the input box at that position with `y1` and `y2` increased by
exactly `dy`, and `x1`, `x2`, `text` and `confidence` are unchanged.  (The
input collection itself is untouched: in this value-level embedding
`apply_offset` builds a new list and cannot mutate its argument.) -/
theorem apply_offset_frame (bb : Boundboxes) (dy : ℚ) :
    (bb.apply_offset dy).boxes.length = bb.boxes.length ∧
    (∀ i : ℕ, (bb.apply_offset dy).boxes[i]? = (bb.boxes[i]?).map (shiftBox dy)) ∧
    (∀ b : Boundbox, (shiftBox dy b).x1 = b.x1 ∧ (shiftBox dy b).x2 = b.x2 ∧
      (shiftBox dy b).text = b.text ∧ (shiftBox dy b).confidence = b.confidence ∧
      (shiftBox dy b).y1 = b.y1 + dy ∧ (shiftBox dy b).y2 = b.y2 + dy) := by
  refine ⟨by simp [Boundboxes.apply_offset], fun i => ?_, fun b => ?_⟩
  · simp [Boundboxes.apply_offset, List.getElem?_map]
  · exact ⟨rfl, rfl, rfl, rfl, rfl, rfl⟩

/- ------------------------------------------------------------------ -/
/- String helpers (Python `in`, `.lower()`, `.strip()`)                -/
/- ------------------------------------------------------------------ -/

/-- Python list/string prefix test used below by substring containment. -/
def startsWithList : List Char → List Char → Bool
  | [], _ => true
  | _ :: _, [] => false
  | a :: as, b :: bs => a = b && startsWithList as bs

/-- Python `needle in hay` on strings: contiguous substring containment. -/
def containsList (needle : List Char) : List Char → Bool
  | [] => startsWithList needle []
  | c :: cs => startsWithList needle (c :: cs) || containsList needle cs

/-- Python `needle in hay` for `String`s. -/
def containsStr (needle hay : String) : Bool :=
  containsList needle.data hay.data

/-- Python `str.lower()` (ASCII case folding suffices for the markers the
code uses). -/
def lowerStr (s : String) : String :=
  String.mk (s.data.map Char.toLower)

/-- Python `str.strip()`: drop whitespace from both ends. -/
def stripStr (s : String) : String :=
  String.mk (((s.data.dropWhile Char.isWhitespace).reverse.dropWhile
    Char.isWhitespace).reverse)

/- ------------------------------------------------------------------ -/
/- Stable sorts (Python `sorted`/`list.sort` with a key are stable)    -/
/- ------------------------------------------------------------------ -/

/-- Key order for `sorted(…, key=lambda box: box.x1)`. -/
def leX1 (a b : Boundbox) : Prop := a.x1 ≤ b.x1

/-- Key order for `sorted(…, key=lambda x: x.y1)`. -/
def leY1 (a b : Boundbox) : Prop := a.y1 ≤ b.y1

/-- Key order for `filtered_buttons.sort(key=lambda box: box.y2)`. -/
def leY2 (a b : Boundbox) : Prop := a.y2 ≤ b.y2

instance : DecidableRel leX1 := fun a b => inferInstanceAs (Decidable (a.x1 ≤ b.x1))

instance : DecidableRel leY1 := fun a b => inferInstanceAs (Decidable (a.y1 ≤ b.y1))

instance : DecidableRel leY2 := fun a b => inferInstanceAs (Decidable (a.y2 ≤ b.y2))

instance : IsTotal Boundbox leX1 := ⟨fun a b => le_total a.x1 b.x1⟩

instance : IsTotal Boundbox leY1 := ⟨fun a b => le_total a.y1 b.y1⟩

instance : IsTotal Boundbox leY2 := ⟨fun a b => le_total a.y2 b.y2⟩

instance : IsTrans Boundbox leX1 := ⟨fun _ _ _ h1 h2 => le_trans h1 h2⟩

instance : IsTrans Boundbox leY1 := ⟨fun _ _ _ h1 h2 => le_trans h1 h2⟩

instance : IsTrans Boundbox leY2 := ⟨fun _ _ _ h1 h2 => le_trans h1 h2⟩

/-- `sorted(boxes, key=lambda box: box.x1)`: a stable sort on `x1`. -/
def sortByX1 (l : List Boundbox) : List Boundbox := List.insertionSort leX1 l

/-- `sorted(boxes, key=lambda x: x.y1)`: a stable sort on `y1`. -/
def sortByY1 (l : List Boundbox) : List Boundbox := List.insertionSort leY1 l

/-- `sort(key=lambda box: box.y2)`: a stable sort on `y2`. -/
def sortByY2 (l : List Boundbox) : List Boundbox := List.insertionSort leY2 l

/- ------------------------------------------------------------------ -/
/- Row primitives                                                      -/
/- ------------------------------------------------------------------ -/

/-- Python `min(box.y1 for box in boxes)` (callers guard non-emptiness;
the `[]` case is an unused default). -/
def minY1 : List Boundbox → ℚ
  | [] => 0
  | b :: rest => rest.foldl (fun m c => min m c.y1) b.y1

/-- Python `max(box.y1 for box in boxes)` (same proviso). -/
def maxY1 : List Boundbox → ℚ
  | [] => 0
  | b :: rest => rest.foldl (fun m c => max m c.y1) b.y1

/-- `Boundboxes.pop_top_line`: boxes whose `y1` is within 10px of the
minimum `y1`. -/
def Boundboxes.pop_top_line (bb : Boundboxes) : Boundboxes :=
  if bb.boxes = [] then ⟨[]⟩
  else ⟨bb.boxes.filter (fun b => decide (b.y1 ≤ minY1 bb.boxes + 10))⟩

/-- `Boundboxes.pop_bottom_line`: boxes whose `y1` is within 10px of the
maximum `y1`. -/
def Boundboxes.pop_bottom_line (bb : Boundboxes) : Boundboxes :=
  if bb.boxes = [] then ⟨[]⟩
  else ⟨bb.boxes.filter (fun b => decide (b.y1 ≥ maxY1 bb.boxes - 10))⟩

/-- `Boundboxes.exclude_top_and_bottom_lines`: boxes in neither the top nor
the bottom row threshold. -/
def Boundboxes.exclude_top_and_bottom_lines (bb : Boundboxes) : Boundboxes :=
  if bb.boxes = [] then ⟨[]⟩
  else ⟨bb.boxes.filter (fun b =>
    !(decide (b.y1 ≤ minY1 bb.boxes + 10) || decide (b.y1 ≥ maxY1 bb.boxes - 10)))⟩

/-- `Boundboxes.remove_matching`: drop boxes whose (optionally lowercased)
text contains any of the (optionally lowercased) pattern substrings. -/
def Boundboxes.remove_matching (bb : Boundboxes) (patterns : List String)
    (case_sensitive : Bool) : Boundboxes :=
  ⟨bb.boxes.filter (fun b =>
    let t := if case_sensitive then b.text else lowerStr b.text
    !(patterns.any (fun p => containsStr (if case_sensitive then p else lowerStr p) t)))⟩

/-- `Boundboxes.to_text_line`: join all box texts with spaces, sorted by
`x1`. -/
def Boundboxes.to_text_line (bb : Boundboxes) : String :=
  if bb.boxes = [] then ""
  else String.intercalate " " ((sortByX1 bb.boxes).map Boundbox.text)

/-- `Boundboxes.find_pattern`, shallowly embedded: the compiled regex is
represented by the Boolean predicate it decides on the stripped text; the
method returns the first box whose stripped text matches. -/
def Boundboxes.find_pattern (bb : Boundboxes) (p : String → Bool) : Option Boundbox :=
  bb.boxes.find? (fun b => p (stripStr b.text))

/-- `Boundboxes.find_boxes_above`: boxes with `y1` at least `margin` above
`y_coord`. -/
def Boundboxes.find_boxes_above (bb : Boundboxes) (y_coord margin : ℚ) : Boundboxes :=
  ⟨bb.boxes.filter (fun b => decide (b.y1 ≤ y_coord - margin))⟩

/-- `Boundboxes.find_boxes_in_region`: boxes with `start_y ≤ y1 ≤ end_y`. -/
def Boundboxes.find_boxes_in_region (bb : Boundboxes) (start_y end_y : ℚ) : Boundboxes :=
  ⟨bb.boxes.filter (fun b => decide (start_y ≤ b.y1 ∧ b.y1 ≤ end_y))⟩

/- ------------------------------------------------------------------ -/
/- create_readable_text (row reconstruction)                           -/
/- ------------------------------------------------------------------ -/

/-- The current row of `create_readable_text`: remaining boxes whose `y1`
is within 10px of the minimum remaining `y1`. -/
def rowOf (remaining : List Boundbox) : List Boundbox :=
  remaining.filter (fun b => decide (b.y1 ≤ minY1 remaining + 10))

/-- `for box in current_row: remaining_boxes.remove(box)`: erase the first
value-equal occurrence of each row box. -/
def removeRow (row remaining : List Boundbox) : List Boundbox :=
  row.foldl (fun acc b => acc.erase b) remaining

theorem foldl_min_le_init (l : List Boundbox) (q : ℚ) :
    l.foldl (fun m c => min m c.y1) q ≤ q := by
  induction l generalizing q with
  | nil => exact le_refl q
  | cons c cs ih => exact le_trans (ih (min q c.y1)) (min_le_left _ _)

theorem foldl_min_attained (l : List Boundbox) (q : ℚ) :
    l.foldl (fun m c => min m c.y1) q = q ∨
    ∃ c ∈ l, l.foldl (fun m c => min m c.y1) q = c.y1 := by
  induction l generalizing q with
  | nil => exact Or.inl rfl
  | cons c cs ih =>
    rcases ih (min q c.y1) with h | ⟨d, hd, he⟩
    · rcases min_cases q c.y1 with ⟨hm, _⟩ | ⟨hm, _⟩
      · exact Or.inl (by simpa [hm] using h)
      · exact Or.inr ⟨c, List.mem_cons_self c cs, by simpa [hm] using h⟩
    · exact Or.inr ⟨d, List.mem_cons_of_mem c hd, he⟩

theorem minY1_attained (l : List Boundbox) (h : l ≠ []) :
    ∃ b ∈ l, b.y1 = minY1 l := by
  match l with
  | [] => exact absurd rfl h
  | b :: rest =>
    rcases foldl_min_attained rest b.y1 with h1 | ⟨c, hc, he⟩
    · exact ⟨b, List.mem_cons_self b rest, (by simpa [minY1] using h1.symm)⟩
    · exact ⟨c, List.mem_cons_of_mem b hc, (by simpa [minY1] using he.symm)⟩

theorem rowOf_ne_nil (l : List Boundbox) (h : l ≠ []) : rowOf l ≠ [] := by
  obtain ⟨b, hb, hy⟩ := minY1_attained l h
  have hmem : b ∈ rowOf l := by
    refine List.mem_filter.mpr ⟨hb, ?_⟩
    rw [decide_eq_true_eq, hy]
    linarith
  intro hnil
  rw [hnil] at hmem
  exact List.not_mem_nil b hmem

theorem foldl_erase_length_le (xs : List Boundbox) (acc : List Boundbox) :
    (xs.foldl (fun a b => a.erase b) acc).length ≤ acc.length := by
  induction xs generalizing acc with
  | nil => exact le_refl _
  | cons x xs ih => exact le_trans (ih (acc.erase x)) (List.length_erase_le x acc)

theorem removeRow_length_lt (l : List Boundbox) (h : l ≠ []) :
    (removeRow (sortByX1 (rowOf l)) l).length < l.length := by
  have hrow := rowOf_ne_nil l h
  have hsorted : sortByX1 (rowOf l) ≠ [] := by
    intro hnil
    have := List.perm_insertionSort leX1 (rowOf l)
    rw [sortByX1] at hnil
    rw [hnil] at this
    exact hrow (List.Perm.nil_eq this).symm
  match hs : sortByX1 (rowOf l) with
  | [] => exact absurd hs hsorted
  | r :: rest =>
    have hrl : r ∈ l := by
      have h1 : r ∈ sortByX1 (rowOf l) := by rw [hs]; exact List.mem_cons_self r rest
      have h2 : r ∈ rowOf l := by
        rw [sortByX1] at h1
        exact (List.mem_insertionSort leX1).mp h1
      exact (List.mem_filter.mp h2).1
    have hlen : (l.erase r).length = l.length - 1 := List.length_erase_of_mem hrl
    have hpos : 0 < l.length := List.length_pos.mpr h
    calc (removeRow (r :: rest) l).length
        = (rest.foldl (fun a b => a.erase b) (l.erase r)).length := rfl
      _ ≤ (l.erase r).length := foldl_erase_length_le rest (l.erase r)
      _ = l.length - 1 := hlen
      _ < l.length := Nat.sub_lt hpos Nat.one_pos

/-- The `while remaining_boxes:` loop of `create_readable_text`, producing
one joined string per extracted row. -/
def createReadableLines (remaining : List Boundbox) : List String :=
  if h : remaining = [] then []
  else
    String.intercalate " " ((sortByX1 (rowOf remaining)).map Boundbox.text) ::
      createReadableLines (removeRow (sortByX1 (rowOf remaining)) remaining)
termination_by remaining.length
decreasing_by exact removeRow_length_lt remaining h

/-- `Boundboxes.create_readable_text`: join the extracted rows with single
spaces (empty collection gives the empty string). -/
def Boundboxes.create_readable_text (bb : Boundboxes) : String :=
  if bb.boxes = [] then ""
  else String.intercalate " " (createReadableLines bb.boxes)

theorem createReadableLines_nil : createReadableLines [] = [] := by
  rw [createReadableLines]
  simp

theorem createReadableLines_cons (l : List Boundbox) (h : ¬(l = [])) :
    createReadableLines l =
      String.intercalate " " ((sortByX1 (rowOf l)).map Boundbox.text) ::
        createReadableLines (removeRow (sortByX1 (rowOf l)) l) := by
  rw [createReadableLines]
  simp [h]

/-- The "world" box of the spec's row-reconstruction example (`x2` and
`confidence` are not constrained by the example and are chosen freely). -/
def worldBox : Boundbox := ⟨60, 100, 0, 10, "world", 1⟩

/-- The "hello" box of the spec's row-reconstruction example. -/
def helloBox : Boundbox := ⟨0, 50, 2, 12, "hello", 1⟩

theorem rowOf_example : sortByX1 (rowOf [worldBox, helloBox]) = [helloBox, worldBox] := by
  have h1 : rowOf [worldBox, helloBox] = [worldBox, helloBox] := by
    unfold rowOf minY1
    norm_num [worldBox, helloBox, List.filter, min_def]
  rw [h1]
  unfold sortByX1
  norm_num [List.insertionSort, List.orderedInsert, leX1, worldBox, helloBox]

theorem createReadableLines_example :
    createReadableLines [worldBox, helloBox] = ["hello world"] := by
  rw [createReadableLines_cons _ (by decide), rowOf_example]
  rw [(by decide : removeRow [helloBox, worldBox] [worldBox, helloBox] = ([] : List Boundbox))]
  rw [createReadableLines_nil]
  decide

/-- C8: on the two-box collection of the spec's example both boxes fall in a
single row (`y1` values 0 and 2 are within 10 of the minimum 0), the row is
ordered by `x1` ascending, and `create_readable_text` returns exactly
"hello world"; on the empty collection it returns the empty string. -/
theorem create_readable_text_example :
    (Boundboxes.mk [worldBox, helloBox]).create_readable_text = "hello world" ∧
    (Boundboxes.mk []).create_readable_text = "" := by
  constructor
  · rw [Boundboxes.create_readable_text]
    rw [if_neg (by decide)]
    rw [show (Boundboxes.mk [worldBox, helloBox]).boxes = [worldBox, helloBox] from rfl]
    rw [createReadableLines_example]
    decide
  · rfl

/-- C10: the row-extraction loop of `create_readable_text` terminates: for
every non-empty remaining list, some remaining box attains the minimum `y1`
and that box satisfies the row condition, so the extracted row is non-empty
and removing it strictly shrinks the remaining list. -/
theorem create_readable_text_loop_decreases (l : List Boundbox) (h : l ≠ []) :
    (∃ b ∈ rowOf l, b.y1 = minY1 l) ∧ rowOf l ≠ [] ∧
    (removeRow (sortByX1 (rowOf l)) l).length < l.length := by
  refine ⟨?_, rowOf_ne_nil l h, removeRow_length_lt l h⟩
  obtain ⟨b, hb, hy⟩ := minY1_attained l h
  refine ⟨b, List.mem_filter.mpr ⟨hb, ?_⟩, hy⟩
  rw [decide_eq_true_eq, hy]
  linarith

/-- Witness for C10 at the concrete one-box list. -/
theorem create_readable_text_loop_decreases_witness :
    ([worldBox] ≠ []) ∧
    ((∃ b ∈ rowOf [worldBox], b.y1 = minY1 [worldBox]) ∧ rowOf [worldBox] ≠ [] ∧
      (removeRow (sortByX1 (rowOf [worldBox])) [worldBox]).length < [worldBox].length) :=
  ⟨by decide, create_readable_text_loop_decreases [worldBox] (by decide)⟩

/- ------------------------------------------------------------------ -/
/- parse_post (content_parser.py)                                      -/
/- ------------------------------------------------------------------ -/

/-- The record `{"author": …, "date": …, "text": …}` returned by
`parse_post`. -/
structure ParsedPost where
  author : String
  date : String
  text : String
deriving DecidableEq, Repr

/-- The regex `^\d+ opmerkingen$` applied with `re.match` to the stripped
box text: one or more digits, a space, the literal `opmerkingen`, end of
string.  (Maximal-munch on the digit prefix coincides with the regex since
the following character must be a space.) -/
def matchesCommentsPattern (s : String) : Bool :=
  let cs := s.data
  let ds := cs.takeWhile Char.isDigit
  !ds.isEmpty && cs.drop ds.length == " opmerkingen".data

/-- `parse_post` (content_parser.py): locate the comments boundary via the
regex, keep boxes at least 10px above it, then extract author (top line,
with the `Volgen` artifact removed), date (next line) and body text. -/
def parse_post (bb : Boundboxes) : ParsedPost :=
  match bb.find_pattern matchesCommentsPattern with
  | none => ⟨"", "", ""⟩
  | some comments_box =>
    let post := bb.find_boxes_above comments_box.y1 10
    if post.boxes = [] then ⟨"", "", ""⟩
    else
      let first_line := post.pop_top_line
      let author := stripStr ((first_line.to_text_line).replace "Volgen" "")
      let remaining := post.boxes.filter (fun b => !(first_line.boxes.contains b))
      if remaining = [] then ⟨author, "", ""⟩
      else
        let second_line := (Boundboxes.mk remaining).pop_top_line
        let date := second_line.to_text_line
        let text_boxes := remaining.filter (fun b => !(second_line.boxes.contains b))
        ⟨author, date, (Boundboxes.mk text_boxes).create_readable_text⟩

/-- C7: `parse_post` signals "nothing found" with the all-empty record and
no error, both when no box's stripped text matches the comments-boundary
regex and when the boundary exists but no box lies at least 10px above
it. -/
theorem parse_post_empty_cases (bb : Boundboxes)
    (h : (∀ b ∈ bb.boxes, matchesCommentsPattern (stripStr b.text) = false) ∨
         (∃ cb, bb.find_pattern matchesCommentsPattern = some cb ∧
            (bb.find_boxes_above cb.y1 10).boxes = [])) :
    parse_post bb = ⟨"", "", ""⟩ := by
  rcases h with h | ⟨cb, hcb, hempty⟩
  · have hnone : bb.find_pattern matchesCommentsPattern = none := by
      unfold Boundboxes.find_pattern
      apply List.find?_eq_none.mpr
      intro b hb
      simp [h b hb]
    unfold parse_post
    rw [hnone]
  · unfold parse_post
    rw [hcb]
    simp [hempty]

/-- Witness for C7: a one-box collection whose text matches nothing. -/
theorem parse_post_empty_cases_witness :
    (∀ b ∈ (Boundboxes.mk [worldBox]).boxes,
      matchesCommentsPattern (stripStr b.text) = false) ∧
    parse_post (Boundboxes.mk [worldBox]) = ⟨"", "", ""⟩ :=
  ⟨by decide, parse_post_empty_cases _ (Or.inl (by decide))⟩

/- ------------------------------------------------------------------ -/
/- Comment-region discovery (facebook_processing.py)                   -/
/- ------------------------------------------------------------------ -/

/-- Ordering used by Python `sorted` on rationals. -/
def leQ (a b : ℚ) : Prop := a ≤ b

instance : DecidableRel leQ := fun a b => inferInstanceAs (Decidable (a ≤ b))

instance : IsTotal ℚ leQ := ⟨fun a b => le_total a b⟩

instance : IsTrans ℚ leQ := ⟨fun _ _ _ h1 h2 => le_trans h1 h2⟩

/-- `statistics.median`: sort; middle element for odd length, mean of the
two middle elements for even length (callers guarantee non-emptiness). -/
def median (l : List ℚ) : ℚ :=
  let s := List.insertionSort leQ l
  let n := s.length
  if n % 2 = 1 then s.getD (n / 2) 0
  else (s.getD (n / 2 - 1) 0 + s.getD (n / 2) 0) / 2

/-- A comment region `[start_y, end_y)` with the reply button that closed
it (`shade_comment_regions` builds these as dicts). -/
structure Region where
  start_y : ℚ
  end_y : ℚ
  button : Boundbox
deriving DecidableEq, Repr

/-- Step 1 of `shade_comment_regions`: boxes whose lowercased text contains
`beantwoorden`. -/
def beantwoordenOf (bb : Boundboxes) : List Boundbox :=
  bb.boxes.filter (fun b => containsStr "beantwoorden" (lowerStr b.text))

/-- Steps 1-2 of `shade_comment_regions`: keep the reply buttons within
5px of the median height and 50px of the median `x1`. -/
def filteredButtons (bb : Boundboxes) : List Boundbox :=
  let median_height := median ((beantwoordenOf bb).map Boundbox.height)
  let median_x1 := median ((beantwoordenOf bb).map Boundbox.x1)
  (beantwoordenOf bb).filter (fun b =>
    decide (|b.height - median_height| ≤ 5 ∧ |b.x1 - median_x1| ≤ 50))

/-- Step 2 of `shade_comment_regions`: the first box whose lowercased text
contains `meest relevant`. -/
def meestRelevantOf (bb : Boundboxes) : Option Boundbox :=
  bb.boxes.find? (fun b => containsStr "meest relevant" (lowerStr b.text))

/-- One iteration of the region walk: the region `[current_y, button.y2)`,
with its start raised to the first top-line box containing `antwoord` when
such a box exists (the reply-count adjustment). -/
def regionStep (bb : Boundboxes) (current_y : ℚ) (button : Boundbox) : Region :=
  let end_y := button.y2
  let region_boxes := bb.find_boxes_in_region current_y end_y
  if region_boxes.boxes = [] then ⟨current_y, end_y, button⟩
  else
    match (region_boxes.pop_top_line).boxes.filter
        (fun b => containsStr "antwoord" (lowerStr b.text)) with
    | [] => ⟨current_y, end_y, button⟩
    | a :: _ => ⟨a.y2, end_y, button⟩

/-- Step 3 of `shade_comment_regions`: walk the `y2`-sorted buttons;
buttons with `end_y ≤ current_y` are skipped without advancing; a used
button produces a region and advances `current_y` to its `y2`. -/
def regionsGo (bb : Boundboxes) (current_y : ℚ) : List Boundbox → List Region
  | [] => []
  | button :: rest =>
    if current_y < button.y2 then
      regionStep bb current_y button :: regionsGo bb button.y2 rest
    else regionsGo bb current_y rest

/-- `shade_comment_regions` restricted to its region computation (the
PNG-drawing tail and the per-region `parse_comment` calls do not affect the
returned region bounds). -/
def findCommentRegions (bb : Boundboxes) : List Region :=
  if beantwoordenOf bb = [] then []
  else
    match meestRelevantOf bb with
    | none => []
    | some mr => regionsGo bb mr.y2 (sortByY2 (filteredButtons bb))

/-- The `meest relevant` marker of the spec's comment-region example
(y2 = 100). -/
def mrBox : Boundbox := ⟨300, 400, 90, 100, "Meest relevant", 1⟩

/-- First reply button of the example (y2 = 150). -/
def btn1 : Boundbox := ⟨300, 400, 140, 150, "Beantwoorden", 1⟩

/-- Second reply button of the example (y2 = 220). -/
def btn2 : Boundbox := ⟨300, 400, 210, 220, "Beantwoorden", 1⟩

/-- The minimal collection of the spec's comment-region example. -/
def commentsEx : Boundboxes := ⟨[mrBox, btn1, btn2]⟩

theorem filteredButtons_commentsEx : filteredButtons commentsEx = [btn1, btn2] := by
  have h1 : beantwoordenOf commentsEx = [btn1, btn2] := by decide
  unfold filteredButtons
  rw [h1]
  norm_num [median, leQ, List.insertionSort, List.orderedInsert, btn1, btn2,
    Boundbox.height, List.filter]

theorem regionStep_first : regionStep commentsEx 100 btn1 = ⟨150, 150, btn1⟩ := by
  have hy : btn1.y2 = (150 : ℚ) := rfl
  have hr : commentsEx.find_boxes_in_region 100 150 = ⟨[btn1]⟩ := by decide
  have ht : (Boundboxes.mk [btn1]).pop_top_line = ⟨[btn1]⟩ := by
    unfold Boundboxes.pop_top_line
    norm_num [minY1, btn1, List.filter]
  have hant : List.filter (fun b => containsStr "antwoord" (lowerStr b.text)) [btn1] =
      [btn1] := by decide
  simp [regionStep, hy, hr, ht, hant]

theorem regionStep_second : regionStep commentsEx 150 btn2 = ⟨220, 220, btn2⟩ := by
  have hy : btn2.y2 = (220 : ℚ) := rfl
  have hr : commentsEx.find_boxes_in_region 150 220 = ⟨[btn2]⟩ := by decide
  have ht : (Boundboxes.mk [btn2]).pop_top_line = ⟨[btn2]⟩ := by
    unfold Boundboxes.pop_top_line
    norm_num [minY1, btn2, List.filter]
  have hant : List.filter (fun b => containsStr "antwoord" (lowerStr b.text)) [btn2] =
      [btn2] := by decide
  simp [regionStep, hy, hr, ht, hant]

theorem findCommentRegions_commentsEx :
    findCommentRegions commentsEx = [⟨150, 150, btn1⟩, ⟨220, 220, btn2⟩] := by
  have h1 : ¬(beantwoordenOf commentsEx = []) := by decide
  have h2 : meestRelevantOf commentsEx = some mrBox := by decide
  have h3 : sortByY2 [btn1, btn2] = [btn1, btn2] := by decide
  have hmr : mrBox.y2 = (100 : ℚ) := rfl
  have hb1 : btn1.y2 = (150 : ℚ) := rfl
  have hb2 : btn2.y2 = (220 : ℚ) := rfl
  simp only [findCommentRegions, if_neg h1, h2, filteredButtons_commentsEx, h3]
  rw [hmr]
  simp only [regionsGo, hb1, hb2]
  rw [if_pos (by norm_num : (100 : ℚ) < 150)]
  rw [if_pos (by norm_num : (150 : ℚ) < 220)]
  rw [regionStep_first, regionStep_second]

/-- C6 counterexample: on the minimal collection realizing the claim's
premise (one `meest relevant` marker with y2 = 100, two consistent reply
buttons with y2 = 150 and y2 = 220), the code does NOT return the regions
`[100,150)` and `[150,220)`: each region's stored start is raised to its own
button's `y2` because `beantwoorden` contains the substring `antwoord`, so
the returned bounds are `[150,150)` and `[220,220)`. -/
theorem comment_regions_counterexample :
    (findCommentRegions commentsEx).map (fun r => (r.start_y, r.end_y)) =
      [(150, 150), (220, 220)] ∧
    (findCommentRegions commentsEx).map (fun r => (r.start_y, r.end_y)) ≠
      [(100, 150), (150, 220)] := by
  rw [findCommentRegions_commentsEx]
  constructor
  · rfl
  · decide

/-- C6 (amended): the walk creates exactly two regions from the example,
closed by the buttons at y2 = 150 and y2 = 220 and created with starts 100
and 150, but the per-region `antwoord` refinement raises each stored start
to its own button's `y2` (the button text `beantwoorden` contains
`antwoord`), so the returned bounds are `[150,150)` and `[220,220)`.  In
general a button whose `y2` is not strictly greater than the current start
produces no region and leaves the start unchanged, and each used button
advances the start to its `y2`. -/
theorem comment_regions_amended :
    (findCommentRegions commentsEx).map (fun r => (r.start_y, r.end_y)) =
      [(150, 150), (220, 220)] ∧
    (findCommentRegions commentsEx).map (fun r => r.button) = [btn1, btn2] ∧
    (∀ (bb : Boundboxes) (y : ℚ) (btn : Boundbox) (rest : List Boundbox),
      btn.y2 ≤ y → regionsGo bb y (btn :: rest) = regionsGo bb y rest) ∧
    (∀ (bb : Boundboxes) (y : ℚ) (btn : Boundbox) (rest : List Boundbox),
      y < btn.y2 →
        regionsGo bb y (btn :: rest) = regionStep bb y btn :: regionsGo bb btn.y2 rest) := by
  refine ⟨?_, ?_, ?_, ?_⟩
  · rw [findCommentRegions_commentsEx]; rfl
  · rw [findCommentRegions_commentsEx]; rfl
  · intro bb y btn rest h
    simp only [regionsGo, if_neg (not_lt.mpr h)]
  · intro bb y btn rest h
    simp only [regionsGo, if_pos h]

/-- Witness for C6's amended theorem at a concrete skipped button. -/
theorem comment_regions_amended_witness :
    btn1.y2 ≤ (300 : ℚ) ∧
    regionsGo commentsEx 300 (btn1 :: []) = regionsGo commentsEx 300 [] :=
  ⟨by decide, comment_regions_amended.2.2.1 commentsEx 300 btn1 [] (by decide)⟩

/- ------------------------------------------------------------------ -/
/- Alignment engine (image_alignment.py)                               -/
/- ------------------------------------------------------------------ -/

/-- Length of a longest common subsequence of two character lists. -/
def lcsLen : List Char → List Char → ℕ
  | [], _ => 0
  | _ :: _, [] => 0
  | a :: as, b :: bs =>
    if a = b then lcsLen as bs + 1
    else max (lcsLen (a :: as) bs) (lcsLen as (b :: bs))
termination_by l1 l2 => l1.length + l2.length
decreasing_by all_goals (simp_wf; try omega)

/-- `text_similarity` (image_alignment.py).  The source calls
`difflib.SequenceMatcher(...).ratio()`, an external library; the spec
admits any ratio of longest-common-subsequence flavour with the contract
that identical strings score 1.0 and disjoint strings score near 0, so the
embedding uses the LCS ratio `2*M/(len1+len2)` (with the library's value 1
for two empty strings). -/
def text_similarity (t1 t2 : String) : ℚ :=
  if t1.length + t2.length = 0 then 1
  else 2 * (lcsLen t1.data t2.data : ℚ) / ((t1.length + t2.length : ℕ) : ℚ)

/-- Marking an already-present dict key as a duplicate:
`prev_unique[text] = None` keeps the key's position and nulls its value. -/
def markDup (t : String) : List (String × Option Boundbox) → List (String × Option Boundbox)
  | [] => []
  | (k, v) :: rest => if k = t then (k, none) :: rest else (k, v) :: markDup t rest

/-- One step of the unique-text dict build: first occurrence inserts the
box, a repeated text nulls the stored value. -/
def addBox (acc : List (String × Option Boundbox)) (b : Boundbox) :
    List (String × Option Boundbox) :=
  if acc.any (fun p => decide (p.1 = b.text)) then markDup b.text acc
  else acc ++ [(b.text, some b)]

/-- The `prev_unique`/`curr_unique` dict of `find_y_offset_boundboxes`
after dropping the `None` entries: texts occurring exactly once, each with
its box, in first-occurrence order. -/
def uniqueTexts (boxes : List Boundbox) : List (String × Boundbox) :=
  (boxes.foldl addBox []).filterMap (fun p => p.2.map (fun b => (p.1, b)))

/-- One candidate comparison of the inner matching loop: skip when
similarity < 0.9 or the `x1` difference exceeds 10, otherwise keep the
candidate when its score strictly beats the best so far. -/
def considerCandidate (ct : String) (cb : Boundbox)
    (best : Option (String × Boundbox) × ℚ) (p : String × Boundbox) :
    Option (String × Boundbox) × ℚ :=
  let score := text_similarity ct p.1
  if score < 9/10 then best
  else if |cb.x1 - p.2.x1| > 10 then best
  else if best.2 < score then (some p, score) else best

/-- The inner loop over `prev_unique` for one current box (`used_prev_texts`
is always empty when this runs, since the function returns on the first
accepted match). -/
def bestMatch (prevU : List (String × Boundbox)) (ct : String) (cb : Boundbox) :
    Option (String × Boundbox) × ℚ :=
  prevU.foldl (considerCandidate ct cb) (none, 0)

/-- `(y1 + y2) / 2`. -/
def yMid (b : Boundbox) : ℚ := (b.y1 + b.y2) / 2

/-- The outer loop over `curr_unique`: return the offset of the first
current box that obtains a best match. -/
def findFirstOffset (prevU : List (String × Boundbox)) :
    List (String × Boundbox) → Option ℚ
  | [] => none
  | (ct, cb) :: rest =>
    match (bestMatch prevU ct cb).1 with
    | some q => some (yMid q.2 - yMid cb)
    | none => findFirstOffset prevU rest

/-- `find_y_offset_boundboxes` (image_alignment.py). -/
def find_y_offset (prev curr : Boundboxes) : Option ℚ :=
  if prev.boxes = [] ∨ curr.boxes = [] then none
  else findFirstOffset (uniqueTexts prev.boxes) (uniqueTexts curr.boxes)

/-- The cumulative-offset update of `find_alignment_offsets_boundboxes`:
add the pairwise offset when one exists, else carry the previous value. -/
def alignStep (prev curr : Boundboxes) (acc : ℚ) : ℚ :=
  match find_y_offset prev curr with
  | some o => acc + o
  | none => acc

/-- The `for i in range(1, len(...))` loop, threading the last cumulative
offset. -/
def alignGo (prev : Boundboxes) (acc : ℚ) : List Boundboxes → List ℚ
  | [] => []
  | c :: cs => alignStep prev c acc :: alignGo c (alignStep prev c acc) cs

/-- `find_alignment_offsets_boundboxes` (image_alignment.py).  Note the
guard: a list of length ≤ 1 — the empty list included — returns `[0.0]`. -/
def find_alignment_offsets (ls : List Boundboxes) : List ℚ :=
  if ls.length ≤ 1 then [0]
  else
    match ls with
    | [] => [0]
    | x :: rest => 0 :: alignGo x 0 rest

theorem alignGo_length (rest : List Boundboxes) :
    ∀ (prev : Boundboxes) (acc : ℚ), (alignGo prev acc rest).length = rest.length := by
  induction rest with
  | nil => intro prev acc; simp [alignGo]
  | cons c cs ih => intro prev acc; simp [alignGo, ih]

theorem alignGo_getD (rest : List Boundboxes) :
    ∀ (prev : Boundboxes) (acc : ℚ) (i : ℕ), i + 1 < rest.length + 1 →
      (acc :: alignGo prev acc rest).getD (i + 1) 0 =
        alignStep ((prev :: rest).getD i ⟨[]⟩) ((prev :: rest).getD (i + 1) ⟨[]⟩)
          ((acc :: alignGo prev acc rest).getD i 0) := by
  induction rest with
  | nil => intro prev acc i hi; simp at hi
  | cons c cs ih =>
    intro prev acc i hi
    cases i with
    | zero => simp [alignGo]
    | succ j =>
      have hj : j + 1 < cs.length + 1 := by
        simp only [List.length_cons] at hi
        omega
      have := ih c (alignStep prev c acc) j hj
      simpa [alignGo] using this

/-- C2 counterexample: on the empty input (N = 0) the engine returns
`[0.0]`, a list of length 1, not the claimed 0 offsets. -/
theorem alignment_empty_counterexample :
    find_alignment_offsets [] = [0] ∧ (find_alignment_offsets []).length ≠ 0 :=
  ⟨rfl, by decide⟩

/-- C2 (amended): for every non-empty list of N collections the engine
returns exactly N cumulative offsets, the offset for image 0 is 0, and each
following offset is the previous cumulative offset plus the pairwise offset
when one exists and the previous cumulative offset unchanged otherwise
(`alignStep`).  For the empty list the engine instead returns the single
offset `[0.0]`. -/
theorem alignment_offsets_amended (ls : List Boundboxes) (h : ls ≠ []) :
    (find_alignment_offsets ls).length = ls.length ∧
    (find_alignment_offsets ls).getD 0 0 = 0 ∧
    ∀ i : ℕ, i + 1 < ls.length →
      (find_alignment_offsets ls).getD (i + 1) 0 =
        alignStep (ls.getD i ⟨[]⟩) (ls.getD (i + 1) ⟨[]⟩)
          ((find_alignment_offsets ls).getD i 0) := by
  match ls with
  | [] => exact absurd rfl h
  | [x] =>
    refine ⟨rfl, rfl, ?_⟩
    intro i hi
    simp at hi
  | x :: y :: ys =>
    have hlen : ¬((x :: y :: ys).length ≤ 1) := by simp
    have hval : find_alignment_offsets (x :: y :: ys) = 0 :: alignGo x 0 (y :: ys) := by
      unfold find_alignment_offsets
      rw [if_neg hlen]
    refine ⟨?_, ?_, ?_⟩
    · rw [hval]
      simp [alignGo_length]
    · rw [hval]
      rfl
    · intro i hi
      rw [hval]
      exact alignGo_getD (y :: ys) x 0 i (by simpa using hi)

/-- Witness for C2's amended theorem at a concrete two-image input. -/
theorem alignment_offsets_amended_witness :
    (([⟨[]⟩, ⟨[]⟩] : List Boundboxes) ≠ []) ∧
    ((find_alignment_offsets [⟨[]⟩, ⟨[]⟩]).length = ([⟨[]⟩, ⟨[]⟩] : List Boundboxes).length ∧
     (find_alignment_offsets [⟨[]⟩, ⟨[]⟩]).getD 0 0 = 0 ∧
     ∀ i : ℕ, i + 1 < ([⟨[]⟩, ⟨[]⟩] : List Boundboxes).length →
       (find_alignment_offsets [⟨[]⟩, ⟨[]⟩]).getD (i + 1) 0 =
         alignStep (([⟨[]⟩, ⟨[]⟩] : List Boundboxes).getD i ⟨[]⟩)
           (([⟨[]⟩, ⟨[]⟩] : List Boundboxes).getD (i + 1) ⟨[]⟩)
           ((find_alignment_offsets [⟨[]⟩, ⟨[]⟩]).getD i 0)) :=
  ⟨by decide, alignment_offsets_amended [⟨[]⟩, ⟨[]⟩] (by decide)⟩

/- ------------------------------------------------------------------ -/
/- LCS and similarity lemmas                                           -/
/- ------------------------------------------------------------------ -/

theorem lcsLen_nil_left (l : List Char) : lcsLen [] l = 0 := by
  simp [lcsLen]

theorem lcsLen_nil_right (l : List Char) : lcsLen l [] = 0 := by
  cases l <;> simp [lcsLen]

theorem lcsLen_cons_cons (a b : Char) (as bs : List Char) :
    lcsLen (a :: as) (b :: bs) =
      if a = b then lcsLen as bs + 1
      else max (lcsLen (a :: as) bs) (lcsLen as (b :: bs)) := by
  simp [lcsLen]

theorem lcsLen_le_left (l1 : List Char) : ∀ l2, lcsLen l1 l2 ≤ l1.length := by
  induction l1 with
  | nil => intro l2; simp [lcsLen_nil_left]
  | cons a as ih =>
    intro l2
    induction l2 with
    | nil => simp [lcsLen_nil_right]
    | cons b bs ih2 =>
      rw [lcsLen_cons_cons]
      by_cases hab : a = b
      · rw [if_pos hab]
        have := ih bs
        simp only [List.length_cons]
        omega
      · rw [if_neg hab]
        exact max_le ih2 (le_trans (ih (b :: bs)) (Nat.le_succ _))

theorem lcsLen_le_right (l1 : List Char) : ∀ l2, lcsLen l1 l2 ≤ l2.length := by
  induction l1 with
  | nil => intro l2; simp [lcsLen_nil_left]
  | cons a as ih =>
    intro l2
    induction l2 with
    | nil => simp [lcsLen_nil_right]
    | cons b bs ih2 =>
      rw [lcsLen_cons_cons]
      by_cases hab : a = b
      · rw [if_pos hab]
        have := ih bs
        simp only [List.length_cons]
        omega
      · rw [if_neg hab]
        refine max_le (le_trans ih2 (Nat.le_succ _)) ?_
        exact ih (b :: bs)

theorem lcsLen_self (l : List Char) : lcsLen l l = l.length := by
  induction l with
  | nil => simp [lcsLen_nil_left]
  | cons a as ih => rw [lcsLen_cons_cons, if_pos rfl, ih]; rfl

theorem lcsLen_eq_of_lengths (l1 : List Char) :
    ∀ l2, lcsLen l1 l2 = l1.length → lcsLen l1 l2 = l2.length → l1 = l2 := by
  induction l1 with
  | nil =>
    intro l2 _ h2
    rw [lcsLen_nil_left] at h2
    exact (List.length_eq_zero.mp h2.symm).symm
  | cons a as ih =>
    intro l2 h1 h2
    cases l2 with
    | nil =>
      rw [lcsLen_nil_right] at h1
      simp at h1
    | cons b bs =>
      by_cases hab : a = b
      · rw [lcsLen_cons_cons, if_pos hab] at h1 h2
        simp only [List.length_cons] at h1 h2
        have := ih bs (by omega) (by omega)
        rw [hab, this]
      · exfalso
        rw [lcsLen_cons_cons, if_neg hab] at h1 h2
        have hu := lcsLen_le_right (a :: as) bs
        have hv := lcsLen_le_left as (b :: bs)
        simp only [List.length_cons] at h1 h2
        rcases max_cases (lcsLen (a :: as) bs) (lcsLen as (b :: bs)) with ⟨hm, _⟩ | ⟨hm, _⟩ <;>
          omega

theorem string_eq_of_data (s t : String) (h : s.data = t.data) : s = t := by
  cases s
  cases t
  exact congrArg String.mk h

theorem text_similarity_self (t : String) : text_similarity t t = 1 := by
  unfold text_similarity
  by_cases h : t.length + t.length = 0
  · rw [if_pos h]
  · rw [if_neg h]
    have hL : t.length = t.data.length := rfl
    have hn : t.data.length ≠ 0 := by omega
    rw [lcsLen_self, hL]
    push_cast
    rw [show ((t.data.length : ℚ) + t.data.length) = 2 * t.data.length by ring]
    rw [div_self (mul_ne_zero two_ne_zero (Nat.cast_ne_zero.mpr hn))]

theorem text_similarity_lt_one (t1 t2 : String) (h : t1 ≠ t2) :
    text_similarity t1 t2 < 1 := by
  unfold text_similarity
  have e1 : t1.length = t1.data.length := rfl
  have e2 : t2.length = t2.data.length := rfl
  by_cases h0 : t1.length + t2.length = 0
  · exfalso
    apply h
    apply string_eq_of_data
    rw [List.length_eq_zero.mp (by omega : t1.data.length = 0),
      List.length_eq_zero.mp (by omega : t2.data.length = 0)]
  · rw [if_neg h0]
    have hkey : 2 * lcsLen t1.data t2.data < t1.length + t2.length := by
      by_contra hc
      push_neg at hc
      have hu := lcsLen_le_left t1.data t2.data
      have hv := lcsLen_le_right t1.data t2.data
      exact h (string_eq_of_data _ _
        (lcsLen_eq_of_lengths _ _ (by omega) (by omega)))
    rw [div_lt_one (by exact_mod_cast Nat.pos_of_ne_zero h0)]
    exact_mod_cast hkey

/- ------------------------------------------------------------------ -/
/- Unique-text dictionary lemmas                                       -/
/- ------------------------------------------------------------------ -/

/-- Shifting the optional box stored in a dict entry. -/
def entryShift (d : ℚ) (p : String × Option Boundbox) : String × Option Boundbox :=
  (p.1, p.2.map (shiftBox d))

/-- Shifting the box of a unique-text pair. -/
def pairShift (d : ℚ) (p : String × Boundbox) : String × Boundbox :=
  (p.1, shiftBox d p.2)

theorem markDup_map (d : ℚ) (t : String) :
    ∀ l, markDup t (l.map (entryShift d)) = (markDup t l).map (entryShift d) := by
  intro l
  induction l with
  | nil => rfl
  | cons p rest ih =>
    obtain ⟨k, v⟩ := p
    by_cases hk : k = t
    · simp [markDup, entryShift, hk]
    · simp [markDup, entryShift, hk, ih]

theorem addBox_map (d : ℚ) (acc : List (String × Option Boundbox)) (b : Boundbox) :
    addBox (acc.map (entryShift d)) (shiftBox d b) = (addBox acc b).map (entryShift d) := by
  have htext : (shiftBox d b).text = b.text := rfl
  unfold addBox
  rw [htext]
  have hany : (acc.map (entryShift d)).any (fun p => decide (p.1 = b.text)) =
      acc.any (fun p => decide (p.1 = b.text)) := by
    rw [List.any_map]
    rfl
  rw [hany]
  by_cases hc : acc.any (fun p => decide (p.1 = b.text)) = true
  · rw [if_pos hc, if_pos hc, markDup_map]
  · rw [if_neg hc, if_neg hc, List.map_append]
    rfl

theorem foldl_addBox_map (d : ℚ) (bs : List Boundbox) :
    ∀ acc, (bs.map (shiftBox d)).foldl addBox (acc.map (entryShift d)) =
      (bs.foldl addBox acc).map (entryShift d) := by
  induction bs with
  | nil => intro acc; rfl
  | cons b rest ih =>
    intro acc
    simp only [List.map_cons, List.foldl_cons]
    rw [addBox_map, ih]

theorem filterMap_entryShift (d : ℚ) :
    ∀ (l : List (String × Option Boundbox)),
      (l.map (entryShift d)).filterMap (fun p => p.2.map (fun b => (p.1, b))) =
        (l.filterMap (fun p => p.2.map (fun b => (p.1, b)))).map (pairShift d) := by
  intro l
  induction l with
  | nil => rfl
  | cons p rest ih =>
    obtain ⟨k, v⟩ := p
    cases v with
    | none => simpa [entryShift, List.filterMap_cons] using ih
    | some b => simp [entryShift, pairShift, List.filterMap_cons, ih]

theorem uniqueTexts_map (d : ℚ) (bs : List Boundbox) :
    uniqueTexts (bs.map (shiftBox d)) = (uniqueTexts bs).map (pairShift d) := by
  unfold uniqueTexts
  have h := foldl_addBox_map d bs []
  simp only [List.map_nil] at h
  rw [h, filterMap_entryShift]

/-- Dict keys, for the no-duplicate-keys invariant. -/
def keysOf (l : List (String × Option Boundbox)) : List String := l.map Prod.fst

theorem markDup_keys (t : String) : ∀ l, keysOf (markDup t l) = keysOf l := by
  intro l
  induction l with
  | nil => rfl
  | cons p rest ih =>
    obtain ⟨k, v⟩ := p
    by_cases hk : k = t
    · simp [markDup, keysOf, hk]
    · simp only [markDup, if_neg hk]
      simp only [keysOf, List.map_cons] at ih ⊢
      rw [ih]

theorem addBox_keys_nodup (acc : List (String × Option Boundbox)) (b : Boundbox)
    (h : (keysOf acc).Nodup) : (keysOf (addBox acc b)).Nodup := by
  unfold addBox
  by_cases hc : acc.any (fun p => decide (p.1 = b.text)) = true
  · rw [if_pos hc, markDup_keys]
    exact h
  · rw [if_neg hc]
    have hnot : b.text ∉ keysOf acc := by
      intro hmem
      rcases List.mem_map.mp hmem with ⟨p, hp, he⟩
      exact hc (List.any_eq_true.mpr ⟨p, hp, by simp [he]⟩)
    have hperm : keysOf (acc ++ [(b.text, some b)]) = keysOf acc ++ [b.text] := by
      simp [keysOf]
    rw [hperm]
    exact (List.perm_append_singleton _ _).nodup_iff.mpr (List.nodup_cons.mpr ⟨hnot, h⟩)

theorem foldl_addBox_keys_nodup (bs : List Boundbox) :
    ∀ acc, (keysOf acc).Nodup → (keysOf (bs.foldl addBox acc)).Nodup := by
  induction bs with
  | nil => intro acc h; exact h
  | cons b rest ih => intro acc h; exact ih (addBox acc b) (addBox_keys_nodup acc b h)

theorem filterMap_keys_sublist :
    ∀ (l : List (String × Option Boundbox)),
      List.Sublist ((l.filterMap (fun p => p.2.map (fun b => (p.1, b)))).map Prod.fst)
        (keysOf l) := by
  intro l
  induction l with
  | nil => exact List.Sublist.refl []
  | cons p rest ih =>
    obtain ⟨k, v⟩ := p
    cases v with
    | none =>
      simp only [List.filterMap_cons, Option.map_none, keysOf, List.map_cons]
      exact ih.cons k
    | some b =>
      simp only [List.filterMap_cons, Option.map_some, keysOf, List.map_cons]
      exact ih.cons₂ k

theorem uniqueTexts_keys_nodup (bs : List Boundbox) :
    ((uniqueTexts bs).map Prod.fst).Nodup := by
  have h1 := foldl_addBox_keys_nodup bs [] (by simp [keysOf])
  exact (filterMap_keys_sublist (bs.foldl addBox [])).nodup h1

theorem mem_keys_foldl (bs : List Boundbox) :
    ∀ (acc : List (String × Option Boundbox)) (t : String),
      t ∈ keysOf (bs.foldl addBox acc) → t ∈ keysOf acc ∨ t ∈ bs.map Boundbox.text := by
  induction bs with
  | nil => intro acc t h; exact Or.inl h
  | cons b rest ih =>
    intro acc t h
    rcases ih (addBox acc b) t h with h1 | h1
    · unfold addBox at h1
      by_cases hc : acc.any (fun p => decide (p.1 = b.text)) = true
      · rw [if_pos hc, markDup_keys] at h1
        exact Or.inl h1
      · rw [if_neg hc] at h1
        unfold keysOf at h1
        rw [List.map_append] at h1
        rcases List.mem_append.mp h1 with h2 | h2
        · exact Or.inl h2
        · simp at h2
          exact Or.inr (by simp [h2])
    · exact Or.inr (List.mem_cons_of_mem _ h1)

theorem mem_markDup_of_ne (t' : String) :
    ∀ (l : List (String × Option Boundbox)) (t : String) (v : Option Boundbox),
      t ≠ t' → (t, v) ∈ l → (t, v) ∈ markDup t' l := by
  intro l
  induction l with
  | nil => intro t v _ h; exact absurd h (List.not_mem_nil _)
  | cons p rest ih =>
    obtain ⟨k, w⟩ := p
    intro t v hne h
    unfold markDup
    by_cases hk : k = t'
    · rw [if_pos hk]
      rcases List.mem_cons.mp h with he | hm
      · exfalso
        apply hne
        rw [(Prod.mk.injEq _ _ _ _).mp he |>.1, hk]
      · exact List.mem_cons_of_mem _ hm
    · rw [if_neg hk]
      rcases List.mem_cons.mp h with he | hm
      · exact he ▸ List.mem_cons_self _ _
      · exact List.mem_cons_of_mem _ (ih t v hne hm)

theorem entry_preserved (bs : List Boundbox) :
    ∀ (acc : List (String × Option Boundbox)) (t : String) (b0 : Boundbox),
      (t, some b0) ∈ acc → (∀ x ∈ bs, x.text ≠ t) →
      (t, some b0) ∈ bs.foldl addBox acc := by
  induction bs with
  | nil => intro acc t b0 h _; exact h
  | cons b rest ih =>
    intro acc t b0 h hall
    have hbt : b.text ≠ t := hall b (List.mem_cons_self _ _)
    apply ih
    · unfold addBox
      by_cases hc : acc.any (fun p => decide (p.1 = b.text)) = true
      · rw [if_pos hc]
        exact mem_markDup_of_ne b.text acc t (some b0) (fun he => hbt he.symm) h
      · rw [if_neg hc]
        exact List.mem_append_left _ h
    · intro x hx
      exact hall x (List.mem_cons_of_mem _ hx)

theorem addBox_of_not_any (acc : List (String × Option Boundbox)) (b : Boundbox)
    (hc : acc.any (fun p => decide (p.1 = b.text)) = false) :
    addBox acc b = acc ++ [(b.text, some b)] := by
  unfold addBox
  rw [if_neg (by simp [hc])]

theorem first_unique_mem (pre post : List Boundbox) (b : Boundbox)
    (acc : List (String × Option Boundbox)) (hk : b.text ∉ keysOf acc)
    (hpre : ∀ x ∈ pre, x.text ≠ b.text) (hpost : ∀ x ∈ post, x.text ≠ b.text) :
    (b.text, some b) ∈ (pre ++ b :: post).foldl addBox acc := by
  rw [List.foldl_append]
  have hk1 : b.text ∉ keysOf (pre.foldl addBox acc) := by
    intro hmem
    rcases mem_keys_foldl pre acc b.text hmem with h1 | h1
    · exact hk h1
    · rcases List.mem_map.mp h1 with ⟨x, hx, he⟩
      exact hpre x hx he
  simp only [List.foldl_cons]
  have hc : (pre.foldl addBox acc).any (fun p => decide (p.1 = b.text)) = false := by
    rw [List.any_eq_false]
    intro p hp
    simp only [decide_eq_true_eq]
    intro he
    exact hk1 (List.mem_map.mpr ⟨p, hp, he⟩)
  have hmem2 : (b.text, some b) ∈ addBox (pre.foldl addBox acc) b := by
    rw [addBox_of_not_any _ _ hc]
    exact List.mem_append_right _ (List.mem_singleton.mpr rfl)
  exact entry_preserved post (addBox (pre.foldl addBox acc) b) b.text b hmem2 hpost

theorem uniqueTexts_mem_of_unique (bs : List Boundbox) (b : Boundbox) (hmem : b ∈ bs)
    (hcount : (bs.filter (fun c => decide (c.text = b.text))).length = 1) :
    (b.text, b) ∈ uniqueTexts bs := by
  obtain ⟨pre, post, rfl⟩ := List.append_of_mem hmem
  have hsplit : (pre ++ b :: post).filter (fun c => decide (c.text = b.text)) =
      pre.filter (fun c => decide (c.text = b.text)) ++
        b :: post.filter (fun c => decide (c.text = b.text)) := by
    rw [List.filter_append, List.filter_cons, if_pos (by simp)]
  rw [hsplit, List.length_append, List.length_cons] at hcount
  have hpre0 : pre.filter (fun c => decide (c.text = b.text)) = [] :=
    List.length_eq_zero.mp (by omega)
  have hpost0 : post.filter (fun c => decide (c.text = b.text)) = [] :=
    List.length_eq_zero.mp (by omega)
  have hpre : ∀ x ∈ pre, x.text ≠ b.text := by
    intro x hx
    have := List.filter_eq_nil_iff.mp hpre0 x hx
    simpa using this
  have hpost : ∀ x ∈ post, x.text ≠ b.text := by
    intro x hx
    have := List.filter_eq_nil_iff.mp hpost0 x hx
    simpa using this
  have hfold := first_unique_mem pre post b [] (by simp [keysOf]) hpre hpost
  exact List.mem_filterMap.mpr ⟨(b.text, some b), hfold, rfl⟩

/- ------------------------------------------------------------------ -/
/- Best-match analysis and the C4 theorem                              -/
/- ------------------------------------------------------------------ -/

theorem foldl_consider_keep (t0 : String) (cb : Boundbox) (m : String × Boundbox)
    (rest : List (String × Boundbox))
    (hall : ∀ p ∈ rest, text_similarity t0 p.1 < 1) :
    rest.foldl (considerCandidate t0 cb) (some m, 1) = (some m, 1) := by
  induction rest with
  | nil => rfl
  | cons p ps ih =>
    have hp := hall p (List.mem_cons_self _ _)
    have hstep : considerCandidate t0 cb (some m, 1) p = (some m, 1) := by
      simp only [considerCandidate]
      by_cases h1 : text_similarity t0 p.1 < 9 / 10
      · rw [if_pos h1]
      · rw [if_neg h1]
        by_cases h2 : |cb.x1 - p.2.x1| > 10
        · rw [if_pos h2]
        · rw [if_neg h2, if_neg (not_lt.mpr (le_of_lt hp))]
    simp only [List.foldl_cons, hstep]
    exact ih (fun q hq => hall q (List.mem_cons_of_mem _ hq))

theorem bestMatch_head (t0 : String) (b0 : Boundbox) (rest : List (String × Boundbox))
    (cb : Boundbox) (hx : cb.x1 = b0.x1) (hkeys : ∀ p ∈ rest, p.1 ≠ t0) :
    bestMatch ((t0, b0) :: rest) t0 cb = (some (t0, b0), 1) := by
  unfold bestMatch
  simp only [List.foldl_cons]
  have hfirst : considerCandidate t0 cb (none, 0) (t0, b0) = (some (t0, b0), 1) := by
    simp only [considerCandidate]
    rw [text_similarity_self]
    rw [if_neg (by norm_num)]
    rw [hx, if_neg (by rw [sub_self, abs_zero]; norm_num)]
    rw [if_pos (by norm_num)]
  rw [hfirst]
  exact foldl_consider_keep t0 cb (t0, b0) rest
    (fun p hp => text_similarity_lt_one t0 p.1 (Ne.symm (hkeys p hp)))

theorem findFirstOffset_head (prevU : List (String × Boundbox)) (t0 : String)
    (cb : Boundbox) (rest : List (String × Boundbox)) (q : String × Boundbox)
    (h : (bestMatch prevU t0 cb).1 = some q) :
    findFirstOffset prevU ((t0, cb) :: rest) = some (yMid q.2 - yMid cb) := by
  simp only [findFirstOffset, h]

theorem yMid_shift (d : ℚ) (b : Boundbox) : yMid (shiftBox d b) = yMid b + d := by
  unfold yMid shiftBox
  ring

/-- C4: when the second collection is the first shifted vertically by a
constant `d` and the first contains at least one box whose text is unique
within it, the pairwise alignment accepts an identical-text anchor pair
(identical texts score similarity 1, the shared `x1` differs by 0) and
returns exactly `prev.yMid - curr.yMid` for that anchor, which is `-d`: the
synthetic shift is recovered exactly. -/
theorem alignment_recovers_shift (A : Boundboxes) (d : ℚ)
    (h : ∃ b ∈ A.boxes, (A.boxes.filter (fun c => decide (c.text = b.text))).length = 1) :
    find_y_offset A (A.apply_offset d) = some (-d) := by
  obtain ⟨b, hb, hcount⟩ := h
  have hne : uniqueTexts A.boxes ≠ [] :=
    List.ne_nil_of_mem (uniqueTexts_mem_of_unique A.boxes b hb hcount)
  have hA : A.boxes ≠ [] := fun hnil => by rw [hnil] at hb; exact List.not_mem_nil b hb
  match hu : uniqueTexts A.boxes with
  | [] => exact absurd hu hne
  | (t0, b0) :: rest =>
    have hcurr : uniqueTexts (A.apply_offset d).boxes =
        (t0, shiftBox d b0) :: rest.map (pairShift d) := by
      show uniqueTexts (A.boxes.map (shiftBox d)) = _
      rw [uniqueTexts_map, hu]
      rfl
    have hkeys : ∀ p ∈ rest, p.1 ≠ t0 := by
      have hnd := uniqueTexts_keys_nodup A.boxes
      rw [hu] at hnd
      simp only [List.map_cons, List.nodup_cons] at hnd
      intro p hp he
      exact hnd.1 (he ▸ List.mem_map_of_mem Prod.fst hp)
    have hbm : bestMatch ((t0, b0) :: rest) t0 (shiftBox d b0) = (some (t0, b0), 1) :=
      bestMatch_head t0 b0 rest (shiftBox d b0) rfl hkeys
    unfold find_y_offset
    rw [if_neg (by simp [Boundboxes.apply_offset, hA])]
    rw [hu, hcurr]
    rw [findFirstOffset_head ((t0, b0) :: rest) t0 (shiftBox d b0)
      (rest.map (pairShift d)) (t0, b0) (by rw [hbm])]
    have hoff : yMid b0 - yMid (shiftBox d b0) = -d := by
      rw [yMid_shift]
      ring
    rw [hoff]

/-- The one-box collection used to witness C4. -/
def anchorA : Boundboxes := ⟨[⟨0, 10, 0, 10, "anchor", 1⟩]⟩

/-- Witness for C4 at a concrete collection and shift 5. -/
theorem alignment_recovers_shift_witness :
    (∃ b ∈ anchorA.boxes,
      (anchorA.boxes.filter (fun c => decide (c.text = b.text))).length = 1) ∧
    find_y_offset anchorA (anchorA.apply_offset 5) = some (-5) :=
  ⟨by decide, alignment_recovers_shift anchorA 5 (by decide)⟩

/- ------------------------------------------------------------------ -/
/- remove_duplicates (boundboxes.py)                                   -/
/- ------------------------------------------------------------------ -/

/-- `max(0, min(box1.x2, box2.x2) - max(box1.x1, box2.x1))`. -/
def xOverlap (b1 b2 : Boundbox) : ℚ := max 0 (min b1.x2 b2.x2 - max b1.x1 b2.x1)

/-- `max(0, min(box1.y2, box2.y2) - max(box1.y1, box2.y1))`. -/
def yOverlap (b1 b2 : Boundbox) : ℚ := max 0 (min b1.y2 b2.y2 - max b1.y1 b2.y1)

/-- `intersection = x_overlap * y_overlap`. -/
def interArea (b1 b2 : Boundbox) : ℚ := xOverlap b1 b2 * yOverlap b1 b2

/-- The duplicate criterion of the claim: the rectangle-intersection area
strictly exceeds `min_ratio` times the smaller box's area. -/
def dupCriterion (r : ℚ) (b1 b2 : Boundbox) : Prop :=
  r * min b1.area b2.area < interArea b1 b2

instance (r : ℚ) (b1 b2 : Boundbox) : Decidable (dupCriterion r b1 b2) := by
  unfold dupCriterion
  infer_instance

/-- The inner `for j in range(i+1, n)` loop of `remove_duplicates`,
walking the index list `js` over the y1-sorted boxes `s`: skip dropped
indices, break once `box2.y1 ≥ box1.y2`, skip non-overlapping pairs,
compute the coverage of the smaller box and drop it when the coverage
exceeds `min_ratio` (dropping `box1` also breaks the loop). -/
def innerLoop (r : ℚ) (s : List Boundbox) (i : ℕ) : Finset ℕ → List ℕ → Finset ℕ
  | keep, [] => keep
  | keep, j :: js =>
    if j ∈ keep then
      if (s.getD i default).y2 ≤ (s.getD j default).y1 then keep
      else if (s.getD j default).y2 ≤ (s.getD i default).y1 then innerLoop r s i keep js
      else if (s.getD i default).area < (s.getD j default).area then
        if r < (if 0 < (s.getD i default).area then
            interArea (s.getD i default) (s.getD j default) / (s.getD i default).area
          else 0) then keep.erase i
        else innerLoop r s i keep js
      else
        if r < (if 0 < (s.getD j default).area then
            interArea (s.getD i default) (s.getD j default) / (s.getD j default).area
          else 0) then innerLoop r s i (keep.erase j) js
        else innerLoop r s i keep js
    else innerLoop r s i keep js

/-- The outer `for i in range(n)` loop: indices already dropped are
skipped, otherwise the inner loop scans the indices after `i`. -/
def outerLoop (r : ℚ) (s : List Boundbox) : List ℕ → Finset ℕ → Finset ℕ
  | [], keep => keep
  | i :: is, keep =>
    if i ∈ keep then
      outerLoop r s is (innerLoop r s i keep (List.range' (i + 1) (s.length - (i + 1))))
    else outerLoop r s is keep

/-- `Boundboxes.remove_duplicates`: sort by `y1`, run the nested loops over
a kept-index set initially containing every index, and return the kept
boxes (in ascending sorted-index order, the deterministic reading of
Python's iteration over the small-int index set). -/
def Boundboxes.remove_duplicates (bb : Boundboxes) (min_ratio : ℚ) : Boundboxes :=
  if bb.boxes = [] then ⟨[]⟩
  else
    let s := sortByY1 bb.boxes
    let keep := outerLoop min_ratio s (List.range s.length) (Finset.range s.length)
    ⟨((List.range s.length).filter (fun a => decide (a ∈ keep))).map
      (fun a => s.getD a default)⟩

/-- First box of the C1 counterexample: `(0,0)-(10,10)`. -/
def boxP : Boundbox := ⟨0, 10, 0, 10, "p", 1⟩

/-- Second box of the C1 counterexample: `(0,20)-(10,30)`, vertically
disjoint from `boxP`. -/
def boxQ : Boundbox := ⟨0, 10, 20, 30, "q", 1⟩

/-- The two-box collection of the C1 counterexample. -/
def dupEx : Boundboxes := ⟨[boxP, boxQ]⟩

/-- C1 counterexample: with the negative threshold `min_ratio = -1` the
claim's universally quantified pairwise clause fails: `remove_duplicates`
keeps both vertically disjoint boxes (the scan breaks before any coverage
test), yet their intersection area 0 strictly exceeds `-1` times the
smaller area, so the output contains a pair meeting the claimed duplicate
criterion. -/
theorem remove_duplicates_counterexample :
    (dupEx.remove_duplicates (-1)).boxes = [boxP, boxQ] ∧
    dupCriterion (-1) boxP boxQ := by
  constructor
  · decide
  · norm_num [dupCriterion, interArea, xOverlap, yOverlap, Boundbox.area,
      Boundbox.width, Boundbox.height, boxP, boxQ, min_def, max_def]

theorem Boundbox.width_nonneg (b : Boundbox) (h : b.wf) : 0 ≤ b.width :=
  sub_nonneg.mpr h.1

theorem Boundbox.height_nonneg (b : Boundbox) (h : b.wf) : 0 ≤ b.height :=
  sub_nonneg.mpr h.2

theorem Boundbox.area_nonneg (b : Boundbox) (h : b.wf) : 0 ≤ b.area :=
  mul_nonneg (b.width_nonneg h) (b.height_nonneg h)

theorem interArea_nonneg (b1 b2 : Boundbox) : 0 ≤ interArea b1 b2 :=
  mul_nonneg (le_max_left 0 _) (le_max_left 0 _)

theorem xOverlap_le_width (b1 b2 : Boundbox) (h1 : b1.wf) : xOverlap b1 b2 ≤ b1.width :=
  max_le (b1.width_nonneg h1) (sub_le_sub (min_le_left _ _) (le_max_left _ _))

theorem yOverlap_le_height (b1 b2 : Boundbox) (h1 : b1.wf) : yOverlap b1 b2 ≤ b1.height :=
  max_le (b1.height_nonneg h1) (sub_le_sub (min_le_left _ _) (le_max_left _ _))

theorem xOverlap_le_width_right (b1 b2 : Boundbox) (h2 : b2.wf) : xOverlap b1 b2 ≤ b2.width :=
  max_le (b2.width_nonneg h2) (sub_le_sub (min_le_right _ _) (le_max_right _ _))

theorem yOverlap_le_height_right (b1 b2 : Boundbox) (h2 : b2.wf) : yOverlap b1 b2 ≤ b2.height :=
  max_le (b2.height_nonneg h2) (sub_le_sub (min_le_right _ _) (le_max_right _ _))

theorem interArea_le_area_left (b1 b2 : Boundbox) (h1 : b1.wf) :
    interArea b1 b2 ≤ b1.area :=
  mul_le_mul (xOverlap_le_width b1 b2 h1) (yOverlap_le_height b1 b2 h1)
    (le_max_left 0 _) (b1.width_nonneg h1)

theorem interArea_le_area_right (b1 b2 : Boundbox) (h2 : b2.wf) :
    interArea b1 b2 ≤ b2.area :=
  mul_le_mul (xOverlap_le_width_right b1 b2 h2) (yOverlap_le_height_right b1 b2 h2)
    (le_max_left 0 _) (b2.width_nonneg h2)

/-- On well-formed boxes the coverage test of the code (on the smaller,
left box) is exactly the claim's duplicate criterion. -/
theorem covTest_iff_left (r : ℚ) (hr : 0 ≤ r) (b1 b2 : Boundbox)
    (h1 : b1.wf) (_h2 : b2.wf) (hmin : b1.area ≤ b2.area) :
    (r < (if 0 < b1.area then interArea b1 b2 / b1.area else 0)) ↔
      dupCriterion r b1 b2 := by
  unfold dupCriterion
  rw [min_eq_left hmin]
  by_cases hpos : 0 < b1.area
  · rw [if_pos hpos, lt_div_iff₀ hpos]
  · rw [if_neg hpos]
    have hz : b1.area = 0 := le_antisymm (not_lt.mp hpos) (b1.area_nonneg h1)
    constructor
    · intro hc
      exact absurd hc (not_lt.mpr hr)
    · intro hc
      exfalso
      rw [hz, mul_zero] at hc
      have hle := interArea_le_area_left b1 b2 h1
      rw [hz] at hle
      exact absurd hc (not_lt.mpr hle)

/-- Same, for the coverage test on the right box. -/
theorem covTest_iff_right (r : ℚ) (hr : 0 ≤ r) (b1 b2 : Boundbox)
    (_h1 : b1.wf) (h2 : b2.wf) (hmin : b2.area ≤ b1.area) :
    (r < (if 0 < b2.area then interArea b1 b2 / b2.area else 0)) ↔
      dupCriterion r b1 b2 := by
  unfold dupCriterion
  rw [min_eq_right hmin]
  by_cases hpos : 0 < b2.area
  · rw [if_pos hpos, lt_div_iff₀ hpos]
  · rw [if_neg hpos]
    have hz : b2.area = 0 := le_antisymm (not_lt.mp hpos) (b2.area_nonneg h2)
    constructor
    · intro hc
      exact absurd hc (not_lt.mpr hr)
    · intro hc
      exfalso
      rw [hz, mul_zero] at hc
      have hle := interArea_le_area_right b1 b2 h2
      rw [hz] at hle
      exact absurd hc (not_lt.mpr hle)

/-- Vertically separated well-formed boxes never meet the duplicate
criterion for a nonnegative threshold: their intersection is empty. -/
theorem not_dup_of_y_gate (r : ℚ) (hr : 0 ≤ r) (b1 b2 : Boundbox)
    (h1 : b1.wf) (h2 : b2.wf) (hgate : b1.y2 ≤ b2.y1 ∨ b2.y2 ≤ b1.y1) :
    ¬ dupCriterion r b1 b2 := by
  unfold dupCriterion
  have hy : yOverlap b1 b2 = 0 := by
    unfold yOverlap
    rcases hgate with h | h
    · apply max_eq_left
      have ha := min_le_left b1.y2 b2.y2
      have hb := le_max_right b1.y1 b2.y1
      linarith
    · apply max_eq_left
      have ha := min_le_right b1.y2 b2.y2
      have hb := le_max_left b1.y1 b2.y1
      linarith
  have hi : interArea b1 b2 = 0 := by
    unfold interArea
    rw [hy, mul_zero]
  rw [hi]
  exact not_lt.mpr (mul_nonneg hr (le_min (b1.area_nonneg h1) (b2.area_nonneg h2)))

theorem getD_mem_of_lt (s : List Boundbox) (a : ℕ) (ha : a < s.length) :
    s.getD a default ∈ s := by
  rw [List.getD_eq_getElem s default ha]
  exact List.getElem_mem ha

theorem sortByY1_sorted (l : List Boundbox) : List.Pairwise leY1 (sortByY1 l) :=
  List.sorted_insertionSort leY1 l

theorem sorted_getD_le (s : List Boundbox) (hs : List.Pairwise leY1 s) (a b : ℕ)
    (hab : a ≤ b) (hb : b < s.length) :
    (s.getD a default).y1 ≤ (s.getD b default).y1 := by
  rcases eq_or_lt_of_le hab with rfl | hlt
  · exact le_refl _
  · have ha : a < s.length := lt_trans hlt hb
    rw [List.getD_eq_getElem s default ha, List.getD_eq_getElem s default hb]
    exact List.pairwise_iff_getElem.mp hs a b ha hb hlt

theorem range'_pairwise_le (a n : ℕ) : (List.range' a n).Pairwise (· ≤ ·) := by
  induction n generalizing a with
  | zero => simp
  | succ n ih =>
    rw [List.range'_succ]
    refine List.pairwise_cons.mpr ⟨?_, ih (a + 1)⟩
    intro k hk
    rw [List.mem_range'_1] at hk
    omega

/-- Post-condition of the inner loop: the kept set only shrinks, only `i`
or scanned indices are dropped, and whenever `i` survives, every scanned
index that also survives fails the duplicate criterion against `i`. -/
theorem innerLoop_spec (r : ℚ) (s : List Boundbox) (hr : 0 ≤ r)
    (hs : List.Pairwise leY1 s) (hwf : ∀ b ∈ s, b.wf) (i : ℕ) (hi : i < s.length) :
    ∀ (js : List ℕ) (keep : Finset ℕ),
      (∀ k ∈ js, i < k ∧ k < s.length) → js.Pairwise (· ≤ ·) →
      innerLoop r s i keep js ⊆ keep ∧
      (∀ m ∈ keep, m ∉ innerLoop r s i keep js → m = i ∨ m ∈ js) ∧
      (i ∈ innerLoop r s i keep js →
        ∀ k ∈ js, k ∈ innerLoop r s i keep js →
          ¬ dupCriterion r (s.getD i default) (s.getD k default)) := by
  intro js
  induction js with
  | nil =>
    intro keep _ _
    exact ⟨Finset.Subset.refl keep, fun m hm hnm => absurd hm hnm,
      fun _ k hk => absurd hk (List.not_mem_nil k)⟩
  | cons j js ih =>
    intro keep hjs hasc
    have hjs' : ∀ k ∈ js, i < k ∧ k < s.length :=
      fun k hk => hjs k (List.mem_cons_of_mem _ hk)
    have hasc' : js.Pairwise (· ≤ ·) := hasc.of_cons
    have hjle : ∀ k ∈ js, j ≤ k := (List.pairwise_cons.mp hasc).1
    obtain ⟨hij, hjn⟩ := hjs j (List.mem_cons_self _ _)
    have hwfi : (s.getD i default).wf := hwf _ (getD_mem_of_lt s i hi)
    have hwfj : (s.getD j default).wf := hwf _ (getD_mem_of_lt s j hjn)
    by_cases hjk : j ∈ keep
    · by_cases hg1 : (s.getD i default).y2 ≤ (s.getD j default).y1
      · have hres : innerLoop r s i keep (j :: js) = keep := by
          simp only [innerLoop, if_pos hjk, if_pos hg1]
        rw [hres]
        refine ⟨Finset.Subset.refl keep, fun m hm hnm => absurd hm hnm, ?_⟩
        intro _ k hk _
        have hjlek : j ≤ k := by
          rcases List.mem_cons.mp hk with rfl | hk2
          · exact le_refl _
          · exact hjle k hk2
        have hkn : k < s.length := (hjs k hk).2
        have hwfk : (s.getD k default).wf := hwf _ (getD_mem_of_lt s k hkn)
        apply not_dup_of_y_gate r hr _ _ hwfi hwfk
        left
        exact le_trans hg1 (sorted_getD_le s hs j k hjlek hkn)
      · by_cases hg2 : (s.getD j default).y2 ≤ (s.getD i default).y1
        · have hres : innerLoop r s i keep (j :: js) = innerLoop r s i keep js := by
            simp only [innerLoop, if_pos hjk, if_neg hg1, if_pos hg2]
          rw [hres]
          obtain ⟨ih1, ih2, ih3⟩ := ih keep hjs' hasc'
          refine ⟨ih1, fun m hm hnm => (ih2 m hm hnm).imp id (List.mem_cons_of_mem _), ?_⟩
          intro hiK k hk hkK
          rcases List.mem_cons.mp hk with rfl | hk2
          · exact not_dup_of_y_gate r hr _ _ hwfi hwfj (Or.inr hg2)
          · exact ih3 hiK k hk2 hkK
        · by_cases ha : (s.getD i default).area < (s.getD j default).area
          · by_cases hcov : r < (if 0 < (s.getD i default).area then
                interArea (s.getD i default) (s.getD j default) / (s.getD i default).area
              else 0)
            · have hres : innerLoop r s i keep (j :: js) = keep.erase i := by
                simp only [innerLoop, if_pos hjk, if_neg hg1, if_neg hg2, if_pos ha,
                  if_pos hcov]
              rw [hres]
              refine ⟨Finset.erase_subset _ _, ?_, ?_⟩
              · intro m hm hnm
                left
                by_contra hne
                exact hnm (Finset.mem_erase.mpr ⟨hne, hm⟩)
              · intro hiK
                exact absurd rfl (Finset.mem_erase.mp hiK).1
            · have hres : innerLoop r s i keep (j :: js) = innerLoop r s i keep js := by
                simp only [innerLoop, if_pos hjk, if_neg hg1, if_neg hg2, if_pos ha,
                  if_neg hcov]
              rw [hres]
              obtain ⟨ih1, ih2, ih3⟩ := ih keep hjs' hasc'
              refine ⟨ih1, fun m hm hnm => (ih2 m hm hnm).imp id (List.mem_cons_of_mem _), ?_⟩
              intro hiK k hk hkK
              rcases List.mem_cons.mp hk with rfl | hk2
              · intro hd
                exact hcov ((covTest_iff_left r hr _ _ hwfi hwfj (le_of_lt ha)).mpr hd)
              · exact ih3 hiK k hk2 hkK
          · by_cases hcov : r < (if 0 < (s.getD j default).area then
                interArea (s.getD i default) (s.getD j default) / (s.getD j default).area
              else 0)
            · have hres : innerLoop r s i keep (j :: js) =
                  innerLoop r s i (keep.erase j) js := by
                simp only [innerLoop, if_pos hjk, if_neg hg1, if_neg hg2, if_neg ha,
                  if_pos hcov]
              rw [hres]
              obtain ⟨ih1, ih2, ih3⟩ := ih (keep.erase j) hjs' hasc'
              refine ⟨Finset.Subset.trans ih1 (Finset.erase_subset _ _), ?_, ?_⟩
              · intro m hm hnm
                by_cases hmj : m = j
                · exact Or.inr (by rw [hmj]; exact List.mem_cons_self _ _)
                · exact (ih2 m (Finset.mem_erase.mpr ⟨hmj, hm⟩) hnm).imp id
                    (List.mem_cons_of_mem _)
              · intro hiK k hk hkK
                rcases List.mem_cons.mp hk with rfl | hk2
                · exact absurd rfl (Finset.mem_erase.mp (ih1 hkK)).1
                · exact ih3 hiK k hk2 hkK
            · have hres : innerLoop r s i keep (j :: js) = innerLoop r s i keep js := by
                simp only [innerLoop, if_pos hjk, if_neg hg1, if_neg hg2, if_neg ha,
                  if_neg hcov]
              rw [hres]
              obtain ⟨ih1, ih2, ih3⟩ := ih keep hjs' hasc'
              refine ⟨ih1, fun m hm hnm => (ih2 m hm hnm).imp id (List.mem_cons_of_mem _), ?_⟩
              intro hiK k hk hkK
              rcases List.mem_cons.mp hk with rfl | hk2
              · intro hd
                exact hcov ((covTest_iff_right r hr _ _ hwfi hwfj (not_lt.mp ha)).mpr hd)
              · exact ih3 hiK k hk2 hkK
    · have hres : innerLoop r s i keep (j :: js) = innerLoop r s i keep js := by
        simp only [innerLoop, if_neg hjk]
      rw [hres]
      obtain ⟨ih1, ih2, ih3⟩ := ih keep hjs' hasc'
      refine ⟨ih1, fun m hm hnm => (ih2 m hm hnm).imp id (List.mem_cons_of_mem _), ?_⟩
      intro hiK k hk hkK
      rcases List.mem_cons.mp hk with rfl | hk2
      · exact absurd (ih1 hkK) hjk
      · exact ih3 hiK k hk2 hkK

/-- Post-condition of the outer loop: every pair of surviving indices whose
first component was scheduled (or already clean) fails the duplicate
criterion. -/
theorem outerLoop_spec (r : ℚ) (s : List Boundbox) (hr : 0 ≤ r)
    (hs : List.Pairwise leY1 s) (hwf : ∀ b ∈ s, b.wf) :
    ∀ (is : List ℕ) (keep : Finset ℕ),
      (∀ i ∈ is, i < s.length) →
      (∀ a b, a < b → b < s.length → a ∈ keep → b ∈ keep → a ∉ is →
        ¬ dupCriterion r (s.getD a default) (s.getD b default)) →
      ∀ a b, a < b → b < s.length →
        a ∈ outerLoop r s is keep → b ∈ outerLoop r s is keep →
        ¬ dupCriterion r (s.getD a default) (s.getD b default) := by
  intro is
  induction is with
  | nil =>
    intro keep _ hpre a b hab hb ha1 hb1
    exact hpre a b hab hb ha1 hb1 (List.not_mem_nil a)
  | cons i is ih =>
    intro keep his hpre
    have his' : ∀ k ∈ is, k < s.length := fun k hk => his k (List.mem_cons_of_mem _ hk)
    have hin : i < s.length := his i (List.mem_cons_self _ _)
    by_cases hik : i ∈ keep
    · have hres : outerLoop r s (i :: is) keep =
          outerLoop r s is (innerLoop r s i keep (List.range' (i + 1) (s.length - (i + 1)))) := by
        simp only [outerLoop, if_pos hik]
      rw [hres]
      have hjs : ∀ k ∈ List.range' (i + 1) (s.length - (i + 1)), i < k ∧ k < s.length := by
        intro k hk
        rw [List.mem_range'_1] at hk
        omega
      obtain ⟨inn1, inn2, inn3⟩ := innerLoop_spec r s hr hs hwf i hin
        (List.range' (i + 1) (s.length - (i + 1))) keep hjs (range'_pairwise_le _ _)
      apply ih (innerLoop r s i keep (List.range' (i + 1) (s.length - (i + 1)))) his'
      intro a b hab hb haK hbK hnis
      by_cases hai : a = i
      · subst hai
        have hbmem : b ∈ List.range' (a + 1) (s.length - (a + 1)) := by
          rw [List.mem_range'_1]
          omega
        exact inn3 haK b hbmem hbK
      · refine hpre a b hab hb (inn1 haK) (inn1 hbK) ?_
        intro hmem
        rcases List.mem_cons.mp hmem with h | h
        · exact hai h
        · exact hnis h
    · have hres : outerLoop r s (i :: is) keep = outerLoop r s is keep := by
        simp only [outerLoop, if_neg hik]
      rw [hres]
      apply ih keep his'
      intro a b hab hb haK hbK hnis
      refine hpre a b hab hb haK hbK ?_
      intro hmem
      rcases List.mem_cons.mp hmem with h | h
      · rw [h] at haK
        exact hik haK
      · exact hnis h

/-- The inner loop erases nothing when `i` fails the duplicate criterion
against every scanned index. -/
theorem innerLoop_no_erase (r : ℚ) (s : List Boundbox) (hr : 0 ≤ r)
    (hwf : ∀ b ∈ s, b.wf) (i : ℕ) (hi : i < s.length) :
    ∀ (js : List ℕ) (keep : Finset ℕ),
      (∀ k ∈ js, k < s.length) →
      (∀ k ∈ js, ¬ dupCriterion r (s.getD i default) (s.getD k default)) →
      innerLoop r s i keep js = keep := by
  intro js
  induction js with
  | nil => intro keep _ _; rfl
  | cons j js ih =>
    intro keep hjs hno
    have hjn : j < s.length := hjs j (List.mem_cons_self _ _)
    have hnoj := hno j (List.mem_cons_self _ _)
    have hwfi : (s.getD i default).wf := hwf _ (getD_mem_of_lt s i hi)
    have hwfj : (s.getD j default).wf := hwf _ (getD_mem_of_lt s j hjn)
    have hrec := ih keep (fun k hk => hjs k (List.mem_cons_of_mem _ hk))
      (fun k hk => hno k (List.mem_cons_of_mem _ hk))
    by_cases hjk : j ∈ keep
    · by_cases hg1 : (s.getD i default).y2 ≤ (s.getD j default).y1
      · simp only [innerLoop, if_pos hjk, if_pos hg1]
      · by_cases hg2 : (s.getD j default).y2 ≤ (s.getD i default).y1
        · simp only [innerLoop, if_pos hjk, if_neg hg1, if_pos hg2]
          exact hrec
        · by_cases ha : (s.getD i default).area < (s.getD j default).area
          · have hcov : ¬(r < (if 0 < (s.getD i default).area then
                interArea (s.getD i default) (s.getD j default) / (s.getD i default).area
              else 0)) :=
              fun hc => hnoj ((covTest_iff_left r hr _ _ hwfi hwfj (le_of_lt ha)).mp hc)
            simp only [innerLoop, if_pos hjk, if_neg hg1, if_neg hg2, if_pos ha, if_neg hcov]
            exact hrec
          · have hcov : ¬(r < (if 0 < (s.getD j default).area then
                interArea (s.getD i default) (s.getD j default) / (s.getD j default).area
              else 0)) :=
              fun hc => hnoj ((covTest_iff_right r hr _ _ hwfi hwfj (not_lt.mp ha)).mp hc)
            simp only [innerLoop, if_pos hjk, if_neg hg1, if_neg hg2, if_neg ha, if_neg hcov]
            exact hrec
    · simp only [innerLoop, if_neg hjk]
      exact hrec

/-- The outer loop erases nothing on a pairwise-clean sorted list. -/
theorem outerLoop_no_erase (r : ℚ) (s : List Boundbox) (hr : 0 ≤ r)
    (hwf : ∀ b ∈ s, b.wf)
    (hclean : ∀ a b : ℕ, a < b → b < s.length →
      ¬ dupCriterion r (s.getD a default) (s.getD b default)) :
    ∀ (is : List ℕ) (keep : Finset ℕ),
      (∀ i ∈ is, i < s.length) → outerLoop r s is keep = keep := by
  intro is
  induction is with
  | nil => intro keep _; rfl
  | cons i is ih =>
    intro keep his
    have hin : i < s.length := his i (List.mem_cons_self _ _)
    have hrec := ih keep (fun k hk => his k (List.mem_cons_of_mem _ hk))
    by_cases hik : i ∈ keep
    · have hinner : innerLoop r s i keep (List.range' (i + 1) (s.length - (i + 1))) = keep := by
        apply innerLoop_no_erase r s hr hwf i hin
        · intro k hk
          rw [List.mem_range'_1] at hk
          omega
        · intro k hk
          rw [List.mem_range'_1] at hk
          exact hclean i k (by omega) (by omega)
      simp only [outerLoop, if_pos hik, hinner]
      exact hrec
    · simp only [outerLoop, if_neg hik]
      exact hrec

theorem map_getD_range (l : List Boundbox) :
    (List.range l.length).map (fun a => l.getD a default) = l := by
  apply List.ext_getElem
  · simp
  · intro n h1 h2
    simp only [List.getElem_map, List.getElem_range]
    exact List.getD_eq_getElem l default h2

/-- The three facts about the output of one `remove_duplicates` pass that
drive both halves of C1: no surviving pair meets the duplicate criterion,
the output is sorted by `y1`, and its boxes are well formed (being boxes of
the input). -/
theorem remove_duplicates_out_props (bb : Boundboxes) (r : ℚ) (hr : 0 ≤ r)
    (hwf : ∀ b ∈ bb.boxes, b.wf) :
    ((bb.remove_duplicates r).boxes).Pairwise (fun b1 b2 => ¬ dupCriterion r b1 b2) ∧
    List.Pairwise leY1 ((bb.remove_duplicates r).boxes) ∧
    (∀ b ∈ (bb.remove_duplicates r).boxes, b.wf) := by
  by_cases hnil : bb.boxes = []
  · have hout : (bb.remove_duplicates r).boxes = [] := by
      simp [Boundboxes.remove_duplicates, hnil]
    rw [hout]
    exact ⟨List.Pairwise.nil, List.Pairwise.nil, fun b hb => absurd hb (List.not_mem_nil b)⟩
  · have hs : List.Pairwise leY1 (sortByY1 bb.boxes) := sortByY1_sorted bb.boxes
    have hwfs : ∀ b ∈ sortByY1 bb.boxes, b.wf := by
      intro b hb
      exact hwf b ((List.mem_insertionSort leY1).mp hb)
    have hout : (bb.remove_duplicates r).boxes =
        ((List.range (sortByY1 bb.boxes).length).filter
          (fun a => decide (a ∈ outerLoop r (sortByY1 bb.boxes)
            (List.range (sortByY1 bb.boxes).length)
            (Finset.range (sortByY1 bb.boxes).length)))).map
          (fun a => (sortByY1 bb.boxes).getD a default) := by
      simp only [Boundboxes.remove_duplicates, if_neg hnil]
    have hmain : ∀ a b : ℕ, a < b → b < (sortByY1 bb.boxes).length →
        a ∈ outerLoop r (sortByY1 bb.boxes) (List.range (sortByY1 bb.boxes).length)
          (Finset.range (sortByY1 bb.boxes).length) →
        b ∈ outerLoop r (sortByY1 bb.boxes) (List.range (sortByY1 bb.boxes).length)
          (Finset.range (sortByY1 bb.boxes).length) →
        ¬ dupCriterion r ((sortByY1 bb.boxes).getD a default)
          ((sortByY1 bb.boxes).getD b default) := by
      intro a b hab hb ha1 hb1
      refine outerLoop_spec r (sortByY1 bb.boxes) hr hs hwfs
        (List.range (sortByY1 bb.boxes).length) (Finset.range (sortByY1 bb.boxes).length)
        (fun i hi => List.mem_range.mp hi) ?_ a b hab hb ha1 hb1
      intro a b hab hb _ _ hnin
      exact absurd (List.mem_range.mpr (lt_trans hab hb)) hnin
    have hplt : (((List.range (sortByY1 bb.boxes).length)).filter
        (fun a => decide (a ∈ outerLoop r (sortByY1 bb.boxes)
          (List.range (sortByY1 bb.boxes).length)
          (Finset.range (sortByY1 bb.boxes).length)))).Pairwise (· < ·) :=
      (List.pairwise_lt_range _).filter _
    have hmem : ∀ a ∈ (List.range (sortByY1 bb.boxes).length).filter
        (fun a => decide (a ∈ outerLoop r (sortByY1 bb.boxes)
          (List.range (sortByY1 bb.boxes).length)
          (Finset.range (sortByY1 bb.boxes).length))),
        a < (sortByY1 bb.boxes).length ∧
          a ∈ outerLoop r (sortByY1 bb.boxes) (List.range (sortByY1 bb.boxes).length)
            (Finset.range (sortByY1 bb.boxes).length) := by
      intro a ha
      obtain ⟨h1, h2⟩ := List.mem_filter.mp ha
      exact ⟨List.mem_range.mp h1, of_decide_eq_true h2⟩
    rw [hout]
    refine ⟨?_, ?_, ?_⟩
    · rw [List.pairwise_map]
      refine hplt.imp_of_mem ?_
      intro a b hma hmb hab
      exact hmain a b hab (hmem b hmb).1 (hmem a hma).2 (hmem b hmb).2
    · rw [List.pairwise_map]
      refine hplt.imp_of_mem ?_
      intro a b hma hmb hab
      exact sorted_getD_le (sortByY1 bb.boxes) hs a b (le_of_lt hab) (hmem b hmb).1
    · intro b hb
      rcases List.mem_map.mp hb with ⟨a, hma, rfl⟩
      exact hwfs _ (getD_mem_of_lt _ a (hmem a hma).1)

/-- A second pass over a sorted, well-formed, pairwise-clean collection
returns it unchanged (the sort is the identity and no index is erased). -/
theorem remove_duplicates_of_clean (c : Boundboxes) (r : ℚ) (hr : 0 ≤ r)
    (hsorted : List.Pairwise leY1 c.boxes) (hwf : ∀ b ∈ c.boxes, b.wf)
    (hclean : c.boxes.Pairwise (fun b1 b2 => ¬ dupCriterion r b1 b2)) :
    c.remove_duplicates r = c := by
  by_cases hnil : c.boxes = []
  · unfold Boundboxes.remove_duplicates
    rw [if_pos hnil]
    cases c with
    | mk l =>
      simp only at hnil
      rw [hnil]
  · have hss : sortByY1 c.boxes = c.boxes :=
      List.Sorted.insertionSort_eq hsorted
    simp only [Boundboxes.remove_duplicates, if_neg hnil, hss]
    have hcleanIdx : ∀ a b : ℕ, a < b → b < c.boxes.length →
        ¬ dupCriterion r (c.boxes.getD a default) (c.boxes.getD b default) := by
      intro a b hab hb
      have ha : a < c.boxes.length := lt_trans hab hb
      rw [List.getD_eq_getElem c.boxes default ha, List.getD_eq_getElem c.boxes default hb]
      exact List.pairwise_iff_getElem.mp hclean a b ha hb hab
    have hK : outerLoop r c.boxes (List.range c.boxes.length)
        (Finset.range c.boxes.length) = Finset.range c.boxes.length :=
      outerLoop_no_erase r c.boxes hr hwf hcleanIdx (List.range c.boxes.length)
        (Finset.range c.boxes.length) (fun i hi => List.mem_range.mp hi)
    rw [hK]
    have hfil : (List.range c.boxes.length).filter
        (fun a => decide (a ∈ Finset.range c.boxes.length)) = List.range c.boxes.length := by
      apply List.filter_eq_self.mpr
      intro a ha
      simp [Finset.mem_range, List.mem_range.mp ha]
    rw [hfil, map_getD_range]

/-- C1 (amended): for every nonnegative threshold and collection of
well-formed boxes (the data model's `x1 ≤ x2`, `y1 ≤ y2` invariant),
`remove_duplicates` is idempotent — the second pass returns the identical
collection — and no two boxes of the output meet the duplicate criterion
(intersection strictly greater than `min_ratio` times the smaller area).
For a negative threshold the pairwise clause fails (see the
counterexample). -/
theorem remove_duplicates_idempotent (bb : Boundboxes) (r : ℚ) (hr : 0 ≤ r)
    (hwf : ∀ b ∈ bb.boxes, b.wf) :
    (bb.remove_duplicates r).remove_duplicates r = bb.remove_duplicates r ∧
    ((bb.remove_duplicates r).boxes).Pairwise (fun b1 b2 => ¬ dupCriterion r b1 b2) := by
  obtain ⟨hclean, hsorted, hwfout⟩ := remove_duplicates_out_props bb r hr hwf
  exact ⟨remove_duplicates_of_clean (bb.remove_duplicates r) r hr hsorted hwfout hclean,
    hclean⟩

/-- Witness for C1's amended theorem at the concrete two-box collection
and threshold 2. -/
theorem remove_duplicates_idempotent_witness :
    ((0 : ℚ) ≤ 2 ∧ ∀ b ∈ dupEx.boxes, b.wf) ∧
    ((dupEx.remove_duplicates 2).remove_duplicates 2 = dupEx.remove_duplicates 2 ∧
      ((dupEx.remove_duplicates 2).boxes).Pairwise (fun b1 b2 => ¬ dupCriterion 2 b1 b2)) :=
  ⟨⟨by norm_num, by decide⟩, remove_duplicates_idempotent dupEx 2 (by norm_num) (by decide)⟩

end FBScraper
